import Mathlib

/-!
# Verification of the rectangle-rule integrator and its parallel dispatchers

Shallow embedding of `src/integrate.py`, `src/integrate_processes.py` and
`src/integrate_threads.py`. Real (float) arithmetic is modelled exactly over `ℚ`;
the integrand is an abstract function `ℚ → ℚ`. Python exceptions are modelled by
`Except PyError`: a raised exception becomes `.error e` and a normal return
becomes `.ok r`. Python's `//` on `int` is floor division, modelled by `Int.fdiv`.
-/

/-- The Python exceptions the three source files can raise: `ValueError` with its
message, and `ZeroDivisionError` (from `(b - a) / n_jobs` when `n_jobs == 0`). -/
inductive PyError where
  | valueError : String → PyError
  | zeroDivisionError : PyError
deriving DecidableEq

/-- `integrate` from `src/integrate.py`:

    if n_iter <= 0: raise ValueError("n_iter должно быть положительным")
    if a >= b: raise ValueError("Левая граница a должна быть меньше правой b")
    acc = 0.0
    step = (b - a) / n_iter
    for i in range(n_iter):
        acc += f(a + i * step) * step
    return acc
-/
def integrate (f : ℚ → ℚ) (a b : ℚ) (n_iter : ℤ) : Except PyError ℚ :=
  if n_iter ≤ 0 then .error (.valueError "n_iter должно быть положительным")
  else if a ≥ b then .error (.valueError "Левая граница a должна быть меньше правой b")
  else
    let step : ℚ := (b - a) / (n_iter : ℚ)
    .ok ((List.range n_iter.toNat).foldl
      (fun (acc : ℚ) (i : ℕ) => acc + f (a + (i : ℚ) * step) * step) 0)

/-- The points `a + i * step`, `i ∈ [0, n)`, at which the loop of `integrate`
evaluates the integrand. -/
def samplePoints (a step : ℚ) (n : ℕ) : List ℚ :=
  (List.range n).map (fun (i : ℕ) => a + (i : ℚ) * step)

/-- `job_step` / `step` of the parallel dispatchers: `step = (b - a) / n_jobs`. -/
def job_step (a b : ℚ) (n_jobs : ℤ) : ℚ := (b - a) / (n_jobs : ℚ)

/-- `iter_per_job = n_iter // n_jobs` (Python floor division). -/
def iter_per_job (n_iter n_jobs : ℤ) : ℤ := Int.fdiv n_iter n_jobs

/-- The i-th partition boundary `a + i * step` of the dispatchers; partition `i`
is the interval from `partition_endpoint i` to `partition_endpoint (i+1)`. -/
def partition_endpoint (a b : ℚ) (n_jobs : ℤ) (i : ℕ) : ℚ :=
  a + (i : ℚ) * job_step a b n_jobs

/-- One step of the result-collection fold: take the partial sum accumulated so
far (or the first exception already raised) and add the result of job `i`,
re-raising job `i`'s exception if it failed. -/
def jobFoldStep (jobs : ℕ → Except PyError ℚ) (acc : Except PyError ℚ) (i : ℕ) :
    Except PyError ℚ := do
  let s ← acc
  let r ← jobs i
  pure (s + r)

/-- `sum(f.result() for f in as_completed(futures))` over the `n` submitted jobs.
The first failing `.result()` re-raises the worker's exception; partial sums are
discarded. `as_completed` yields in completion order, which is nondeterministic;
since `ℚ`-addition is commutative and every failing configuration makes all
workers fail with the same exception (they share `iter_per_job` and the sign of
`step`), summation in submission order is an equivalent deterministic model. -/
def sumResults (jobs : ℕ → Except PyError ℚ) (n : ℕ) : Except PyError ℚ :=
  (List.range n).foldl (jobFoldStep jobs) (pure 0)

instance {ε α : Type} [DecidableEq ε] [DecidableEq α] : DecidableEq (Except ε α) := fun x y =>
  match x, y with
  | .ok a, .ok b => if h : a = b then .isTrue (by rw [h]) else .isFalse (by simp [h])
  | .error e₁, .error e₂ => if h : e₁ = e₂ then .isTrue (by rw [h]) else .isFalse (by simp [h])
  | .ok _, .error _ => .isFalse (by simp)
  | .error _, .ok _ => .isFalse (by simp)

/-- `integrate_processes` from `src/integrate_processes.py`: validates `n_jobs`
then `n_iter`, partitions `[a, b]` into `n_jobs` equal parts, submits one
`integrate` call with `iter_per_job` iterations per part, and sums the results. -/
def integrate_processes (f : ℚ → ℚ) (a b : ℚ) (n_iter n_jobs : ℤ) : Except PyError ℚ :=
  if n_jobs ≤ 0 then .error (.valueError "n_jobs должно быть положительным")
  else if n_iter ≤ 0 then .error (.valueError "n_iter должно быть положительным")
  else
    sumResults
      (fun i =>
        integrate f (partition_endpoint a b n_jobs i) (partition_endpoint a b n_jobs (i + 1))
          (iter_per_job n_iter n_jobs))
      n_jobs.toNat

/-- `integrate_threaded` from `src/integrate_threads.py`. It performs NO
precondition checks: `step = (b - a) / n_jobs` raises `ZeroDivisionError` when
`n_jobs == 0`, and `ThreadPoolExecutor(max_workers=n_jobs)` raises
`ValueError("max_workers must be greater than 0")` when `n_jobs < 0`; otherwise
it partitions, submits and sums exactly like the process variant. -/
def integrate_threaded (f : ℚ → ℚ) (a b : ℚ) (n_iter n_jobs : ℤ) : Except PyError ℚ :=
  if n_jobs = 0 then .error .zeroDivisionError
  else if n_jobs < 0 then .error (.valueError "max_workers must be greater than 0")
  else
    sumResults
      (fun i =>
        integrate f (partition_endpoint a b n_jobs i) (partition_endpoint a b n_jobs (i + 1))
          (iter_per_job n_iter n_jobs))
      n_jobs.toNat

/-! ## Basic lemmas about the loop and the job fold -/

/-- The running-accumulator loop of `integrate` computes the finite sum. -/
theorem foldl_add_eq_sum (g : ℕ → ℚ) (n : ℕ) :
    (List.range n).foldl (fun acc i => acc + g i) 0 = ∑ i in Finset.range n, g i := by
  induction n with
  | zero => simp
  | succ n ih =>
      rw [List.range_succ, List.foldl_append, ih, Finset.sum_range_succ]
      simp

/-- On valid inputs, `integrate` returns the left-rectangle sum. -/
theorem integrate_eq_sum (f : ℚ → ℚ) (a b : ℚ) (n : ℤ) (hn : 0 < n) (hab : a < b) :
    integrate f a b n =
      .ok (∑ i in Finset.range n.toNat,
        f (a + (i : ℚ) * ((b - a) / (n : ℚ))) * ((b - a) / (n : ℚ))) := by
  unfold integrate
  rw [if_neg (by omega), if_neg (by exact not_le.mpr hab)]
  exact congrArg Except.ok (foldl_add_eq_sum _ _)

/-- Unfolding the collection fold by its last job. -/
theorem sumResults_succ (jobs : ℕ → Except PyError ℚ) (n : ℕ) :
    sumResults jobs (n + 1) = jobFoldStep jobs (sumResults jobs n) n := by
  unfold sumResults
  rw [List.range_succ, List.foldl_append]
  rfl

/-- If every job succeeds, the collection fold returns the sum of their values. -/
theorem sumResults_ok (jobs : ℕ → Except PyError ℚ) (v : ℕ → ℚ) (n : ℕ)
    (h : ∀ i, i < n → jobs i = .ok (v i)) :
    sumResults jobs n = .ok (∑ i in Finset.range n, v i) := by
  induction n with
  | zero => rfl
  | succ n ih =>
      rw [sumResults_succ, ih (fun i hi => h i (by omega)), Finset.sum_range_succ]
      unfold jobFoldStep
      rw [h n (by omega)]
      rfl

/-- If the collection fold returns a value, every job succeeded. -/
theorem sumResults_ok_inv (jobs : ℕ → Except PyError ℚ) (n : ℕ) (r : ℚ)
    (h : sumResults jobs n = .ok r) : ∀ i, i < n → ∃ v, jobs i = .ok v := by
  induction n generalizing r with
  | zero => intro i hi; omega
  | succ n ih =>
      rw [sumResults_succ] at h
      cases hsn : sumResults jobs n with
      | error e =>
          rw [hsn] at h
          exact absurd h (by simp [jobFoldStep, Bind.bind, Except.bind])
      | ok s =>
          rw [hsn] at h
          intro i hi
          rcases Nat.lt_succ_iff_lt_or_eq.mp hi with hlt | heq
          · exact ih s hsn i hlt
          · subst heq
            cases hj : jobs i with
            | error e =>
                rw [jobFoldStep, hj] at h
                exact absurd h (by simp [Bind.bind, Except.bind])
            | ok v => exact ⟨v, rfl⟩

/-- Once an exception has been raised, the collection fold keeps re-raising it. -/
theorem foldl_jobFoldStep_error (jobs : ℕ → Except PyError ℚ) (e : PyError) (l : List ℕ) :
    l.foldl (jobFoldStep jobs) (.error e) = .error e := by
  induction l with
  | nil => rfl
  | cons x xs ih => exact ih

/-- If the first job fails, the collection fold re-raises its exception. -/
theorem sumResults_first_error (jobs : ℕ → Except PyError ℚ) (e : PyError) (n : ℕ)
    (hn : 0 < n) (h : jobs 0 = .error e) : sumResults jobs n = .error e := by
  obtain ⟨m, rfl⟩ : ∃ m, n = m + 1 := ⟨n - 1, by omega⟩
  unfold sumResults
  rw [List.range_succ_eq_map, List.foldl_cons]
  have h0 : jobFoldStep jobs (pure 0) 0 = .error e := by
    rw [jobFoldStep, h]
    rfl
  rw [h0]
  exact foldl_jobFoldStep_error jobs e _

/-! ## C1: the sequential integrator computes the left-rectangle sum -/

/-- C1: for every integrand `f`, every `a < b` and every `n_iter > 0`,
`integrate f a b n_iter` returns (without raising) the left-rectangle sum
`∑ i ∈ [0, n_iter), f (a + i*step) * step` with `step = (b - a) / n_iter`:
the single left-to-right running accumulator of the loop equals this sum, and
the sample point of sub-interval `i` is its left edge `a + i*step`. -/
theorem integrate_left_rectangle_sum (f : ℚ → ℚ) (a b : ℚ) (n_iter : ℤ)
    (hab : a < b) (hn : 0 < n_iter) :
    integrate f a b n_iter =
      .ok (∑ i in Finset.range n_iter.toNat,
        f (a + (i : ℚ) * ((b - a) / (n_iter : ℚ))) * ((b - a) / (n_iter : ℚ))) :=
  integrate_eq_sum f a b n_iter hn hab

/-- Witness for C1 at `f = id`, `a = 0`, `b = 1`, `n_iter = 2`:
the left-rectangle sum is `f(0)·½ + f(½)·½ = 1/4`. -/
theorem integrate_left_rectangle_sum_witness :
    (0 : ℚ) < 1 ∧ (0 : ℤ) < 2 ∧ integrate (fun x => x) 0 1 2 = .ok (1 / 4) := by
  refine ⟨by norm_num, by decide, ?_⟩
  have h := integrate_left_rectangle_sum (fun x => x) 0 1 2 (by norm_num) (by decide)
  rw [h, show ((2 : ℤ).toNat) = 2 from rfl]
  norm_num [Finset.sum_range_succ]

/-! ## C3: precondition checks of the sequential integrator -/

/-- C3: `integrate` raises `ValueError` when `n_iter ≤ 0`, and (that check coming
first) raises `ValueError` when `a ≥ b`; in both cases the result does not depend
on the integrand, i.e. `f` is never evaluated; and on `a < b`, `n_iter > 0` it
returns a value without raising. -/
theorem integrate_precondition_checks (f g : ℚ → ℚ) (a b : ℚ) (n_iter : ℤ) :
    (n_iter ≤ 0 →
      integrate f a b n_iter = .error (.valueError "n_iter должно быть положительным") ∧
      integrate f a b n_iter = integrate g a b n_iter) ∧
    (0 < n_iter → b ≤ a →
      integrate f a b n_iter =
        .error (.valueError "Левая граница a должна быть меньше правой b") ∧
      integrate f a b n_iter = integrate g a b n_iter) ∧
    (0 < n_iter → a < b → ∃ r : ℚ, integrate f a b n_iter = .ok r) := by
  refine ⟨fun hn => ⟨?_, ?_⟩, fun hn hba => ⟨?_, ?_⟩, fun hn hab => ?_⟩
  · unfold integrate
    rw [if_pos hn]
  · unfold integrate
    rw [if_pos hn, if_pos hn]
  · unfold integrate
    rw [if_neg (by omega), if_pos hba]
  · unfold integrate
    rw [if_neg (by omega), if_pos hba, if_neg (by omega), if_pos hba]
  · exact ⟨_, integrate_eq_sum f a b n_iter hn hab⟩

/-- Witness for C3: both rejection branches and the success branch at concrete
inputs. -/
theorem integrate_precondition_checks_witness :
    integrate (fun x => x) 0 1 0 = .error (.valueError "n_iter должно быть положительным") ∧
    integrate (fun x => x * x) 1 0 5 =
      .error (.valueError "Левая граница a должна быть меньше правой b") ∧
    ∃ r : ℚ, integrate (fun x => x) 0 1 5 = .ok r := by
  refine ⟨((integrate_precondition_checks (fun x => x) (fun y => y + 1) 0 1 0).1 (by decide)).1,
    ((integrate_precondition_checks (fun x => x * x) (fun y => y) 1 0 5).2.1 (by decide)
      (by norm_num)).1,
    (integrate_precondition_checks (fun x => x) (fun y => y) 0 1 5).2.2 (by decide) (by norm_num)⟩

/-- Splitting a sum over `[0, J*m)` into `J` consecutive blocks of length `m`. -/
theorem sum_range_mul_block (g : ℕ → ℚ) (J m : ℕ) :
    ∑ i in Finset.range J, ∑ j in Finset.range m, g (i * m + j) =
      ∑ k in Finset.range (J * m), g k := by
  induction J with
  | zero => simp
  | succ J ih => rw [Finset.sum_range_succ, ih, Nat.succ_mul, Finset.sum_range_add]

/-- Consecutive partition boundaries are strictly increasing when `a < b` and
`n_jobs > 0`. -/
theorem partition_endpoint_lt (a b : ℚ) (n_jobs : ℤ) (hab : a < b) (hj : 0 < n_jobs)
    (i : ℕ) : partition_endpoint a b n_jobs i < partition_endpoint a b n_jobs (i + 1) := by
  have hstep : 0 < job_step a b n_jobs := by
    unfold job_step
    apply div_pos (by linarith)
    exact_mod_cast hj
  unfold partition_endpoint
  push_cast
  nlinarith [hstep]

/-- Exact-arithmetic refinement: when `n_jobs` evenly divides `n_iter`, the sum of
the per-partition left-rectangle sums collected by the dispatchers equals the
sequential left-rectangle sum with `n_iter` samples. -/
theorem parallel_partition_eq (f : ℚ → ℚ) (a b : ℚ) (n_iter n_jobs : ℤ)
    (hab : a < b) (hn : 0 < n_iter) (hj : 0 < n_jobs) (hd : n_jobs ∣ n_iter) :
    sumResults
      (fun i =>
        integrate f (partition_endpoint a b n_jobs i) (partition_endpoint a b n_jobs (i + 1))
          (iter_per_job n_iter n_jobs))
      n_jobs.toNat = integrate f a b n_iter := by
  obtain ⟨m, hm⟩ := hd
  have hjne : n_jobs ≠ 0 := by omega
  have hmpos : (0 : ℤ) < m := by nlinarith
  have hipj : iter_per_job n_iter n_jobs = m := by
    rw [iter_per_job, hm, Int.fdiv_eq_ediv _ (by omega), Int.mul_ediv_cancel_left _ hjne]
  have hjq : ((n_jobs : ℤ) : ℚ) ≠ 0 := Int.cast_ne_zero.mpr hjne
  have hmq : ((m : ℤ) : ℚ) ≠ 0 := Int.cast_ne_zero.mpr (by omega)
  have hcast : ((n_iter : ℤ) : ℚ) = ((n_jobs : ℤ) : ℚ) * ((m : ℤ) : ℚ) := by
    rw [hm]; push_cast; ring
  have hMq : ((m.toNat : ℕ) : ℚ) = ((m : ℤ) : ℚ) := by
    exact_mod_cast Int.toNat_of_nonneg (le_of_lt hmpos)
  have hnt : n_iter.toNat = n_jobs.toNat * m.toNat := by
    rw [hm, ← Int.toNat_of_nonneg (le_of_lt hj), ← Int.toNat_of_nonneg (le_of_lt hmpos),
      ← Nat.cast_mul, Int.toNat_natCast, Int.toNat_natCast, Int.toNat_natCast]
  simp only [hipj]
  have hall : ∀ i, i < n_jobs.toNat →
      integrate f (partition_endpoint a b n_jobs i) (partition_endpoint a b n_jobs (i + 1)) m =
        .ok (∑ j in Finset.range m.toNat,
          f (partition_endpoint a b n_jobs i + (j : ℚ) *
              ((partition_endpoint a b n_jobs (i + 1) - partition_endpoint a b n_jobs i) /
                ((m : ℤ) : ℚ))) *
            ((partition_endpoint a b n_jobs (i + 1) - partition_endpoint a b n_jobs i) /
              ((m : ℤ) : ℚ))) := by
    intro i _
    exact integrate_eq_sum f _ _ m hmpos (partition_endpoint_lt a b n_jobs hab hj i)
  rw [sumResults_ok _ _ n_jobs.toNat hall, integrate_eq_sum f a b n_iter hn hab, hnt]
  congr 1
  rw [← sum_range_mul_block
    (fun k => f (a + (k : ℚ) * ((b - a) / ((n_iter : ℤ) : ℚ))) * ((b - a) / ((n_iter : ℤ) : ℚ)))
    n_jobs.toNat m.toNat]
  refine Finset.sum_congr rfl fun i _ => Finset.sum_congr rfl fun j _ => ?_
  have hps : (partition_endpoint a b n_jobs (i + 1) - partition_endpoint a b n_jobs i) /
      ((m : ℤ) : ℚ) = (b - a) / ((n_iter : ℤ) : ℚ) := by
    unfold partition_endpoint job_step
    rw [hcast]
    push_cast
    field_simp
    ring
  rw [hps]
  congr 2
  unfold partition_endpoint job_step
  rw [hcast]
  push_cast [hMq]
  field_simp
  ring

/-! ## C2: the parallel variants refine the sequential integrator -/

/-- C2: for every integrand, `a < b`, `n_iter > 0` and `n_jobs > 0`, when
`n_jobs` evenly divides `n_iter` and arithmetic is exact, both parallel variants
return exactly what `integrate` returns with `n_iter` total samples over
`[a, b]`: the sum of the per-partition left-rectangle sums equals the sequential
left-rectangle sum. -/
theorem parallel_variants_refine_sequential (f : ℚ → ℚ) (a b : ℚ) (n_iter n_jobs : ℤ)
    (hab : a < b) (hn : 0 < n_iter) (hj : 0 < n_jobs) (hd : n_jobs ∣ n_iter) :
    integrate_processes f a b n_iter n_jobs = integrate f a b n_iter ∧
    integrate_threaded f a b n_iter n_jobs = integrate f a b n_iter := by
  constructor
  · unfold integrate_processes
    rw [if_neg (by omega), if_neg (by omega)]
    exact parallel_partition_eq f a b n_iter n_jobs hab hn hj hd
  · unfold integrate_threaded
    rw [if_neg (by omega), if_neg (by omega)]
    exact parallel_partition_eq f a b n_iter n_jobs hab hn hj hd

/-- Witness for C2 at `f = id`, `[0, 1]`, `n_iter = 4`, `n_jobs = 2`. -/
theorem parallel_variants_refine_sequential_witness :
    (0 : ℚ) < 1 ∧ (0 : ℤ) < 4 ∧ (0 : ℤ) < 2 ∧ (2 : ℤ) ∣ 4 ∧
    integrate_processes (fun x => x) 0 1 4 2 = integrate (fun x => x) 0 1 4 ∧
    integrate_threaded (fun x => x) 0 1 4 2 = integrate (fun x => x) 0 1 4 := by
  have h := parallel_variants_refine_sequential (fun x => x) 0 1 4 2 (by norm_num) (by decide)
    (by decide) (⟨2, by norm_num⟩)
  exact ⟨by norm_num, by decide, by decide, ⟨2, by norm_num⟩, h.1, h.2⟩

/-! ## C6: one partition is the sequential computation -/

/-- C6: with `n_jobs = 1` the single partition is `[a, b]` itself with all
`n_iter` samples, so (in exact arithmetic) both parallel variants are equal to
`integrate` with the same `n_iter`. -/
theorem parallel_njobs_one_eq_sequential (f : ℚ → ℚ) (a b : ℚ) (n_iter : ℤ)
    (hab : a < b) (hn : 0 < n_iter) :
    integrate_processes f a b n_iter 1 = integrate f a b n_iter ∧
    integrate_threaded f a b n_iter 1 = integrate f a b n_iter := by
  constructor
  · unfold integrate_processes
    rw [if_neg (by omega), if_neg (by omega)]
    exact parallel_partition_eq f a b n_iter 1 hab hn (by decide) (one_dvd n_iter)
  · unfold integrate_threaded
    rw [if_neg (by omega), if_neg (by omega)]
    exact parallel_partition_eq f a b n_iter 1 hab hn (by decide) (one_dvd n_iter)

/-- Witness for C6 at `f = id`, `[0, 1]`, `n_iter = 3`. -/
theorem parallel_njobs_one_eq_sequential_witness :
    (0 : ℚ) < 1 ∧ (0 : ℤ) < 3 ∧
    integrate_processes (fun x => x) 0 1 3 1 = integrate (fun x => x) 0 1 3 ∧
    integrate_threaded (fun x => x) 0 1 3 1 = integrate (fun x => x) 0 1 3 := by
  have h := parallel_njobs_one_eq_sequential (fun x => x) 0 1 3 (by norm_num) (by decide)
  exact ⟨by norm_num, by decide, h.1, h.2⟩

/-! ## C5: the partitioning scheme -/

/-- C5: both dispatchers cut `[a, b]` at the points `a + i * job_step` with
`job_step = (b - a) / n_jobs`: the partitions start at `a`, end at `b`, are
contiguous (each ends where the next begins, one `job_step` apart) and strictly
increasing (hence non-overlapping); each receives `iter_per_job = n_iter // n_jobs`
samples, so the `n_jobs * iter_per_job` total samples never exceed `n_iter`,
fall short of it by fewer than `n_jobs`, and fall strictly short whenever
`n_jobs` does not divide `n_iter`. -/
theorem partitioning_scheme (a b : ℚ) (n_iter n_jobs : ℤ)
    (hab : a < b) (hn : 0 < n_iter) (hj : 0 < n_jobs) :
    partition_endpoint a b n_jobs 0 = a ∧
    partition_endpoint a b n_jobs n_jobs.toNat = b ∧
    (∀ i : ℕ, partition_endpoint a b n_jobs (i + 1) =
      partition_endpoint a b n_jobs i + job_step a b n_jobs) ∧
    (∀ i : ℕ, partition_endpoint a b n_jobs i < partition_endpoint a b n_jobs (i + 1)) ∧
    n_jobs * iter_per_job n_iter n_jobs ≤ n_iter ∧
    n_iter - n_jobs * iter_per_job n_iter n_jobs < n_jobs ∧
    (¬ n_jobs ∣ n_iter → n_jobs * iter_per_job n_iter n_jobs < n_iter) := by
  have hjne : n_jobs ≠ 0 := by omega
  have h1 := Int.ediv_add_emod n_iter n_jobs
  have h2 : 0 ≤ n_iter % n_jobs := Int.emod_nonneg n_iter hjne
  have h3 : n_iter % n_jobs < n_jobs := Int.emod_lt_of_pos n_iter hj
  have hfd : iter_per_job n_iter n_jobs = n_iter / n_jobs := by
    rw [iter_per_job, Int.fdiv_eq_ediv _ (by omega)]
  refine ⟨?_, ?_, ?_, fun i => partition_endpoint_lt a b n_jobs hab hj i, ?_, ?_, ?_⟩
  · simp [partition_endpoint]
  · have hJq : ((n_jobs.toNat : ℕ) : ℚ) = ((n_jobs : ℤ) : ℚ) := by
      exact_mod_cast Int.toNat_of_nonneg (le_of_lt hj)
    have hjq : ((n_jobs : ℤ) : ℚ) ≠ 0 := Int.cast_ne_zero.mpr hjne
    unfold partition_endpoint job_step
    rw [hJq]
    field_simp
  · intro i
    unfold partition_endpoint
    push_cast
    ring
  · rw [hfd]; linarith
  · rw [hfd]; linarith
  · intro hnd
    have : n_iter % n_jobs ≠ 0 := fun h => hnd (Int.dvd_iff_emod_eq_zero.mpr h)
    rw [hfd]
    omega

/-- Witness for C5 at `[0, 1]`, `n_iter = 5`, `n_jobs = 2` (not a divisor). -/
theorem partitioning_scheme_witness :
    (0 : ℚ) < 1 ∧ (0 : ℤ) < 5 ∧ (0 : ℤ) < 2 ∧
    partition_endpoint 0 1 2 0 = 0 ∧
    partition_endpoint 0 1 2 (2 : ℤ).toNat = 1 ∧
    2 * iter_per_job 5 2 ≤ 5 ∧ (5 : ℤ) - 2 * iter_per_job 5 2 < 2 ∧
    2 * iter_per_job 5 2 < 5 := by
  have h := partitioning_scheme 0 1 5 2 (by norm_num) (by decide) (by decide)
  exact ⟨by norm_num, by decide, by decide, h.1, h.2.1, h.2.2.2.2.1, h.2.2.2.2.2.1,
    h.2.2.2.2.2.2 (by decide)⟩

/-! ## C7: worker failures propagate, partial results are discarded -/

/-- C7: for both dispatchers, if the per-partition `integrate` invocation of any
partition `i` raises, then the dispatcher itself raises: no partial-result value
is ever returned to the caller. -/
theorem worker_failure_propagates (f : ℚ → ℚ) (a b : ℚ) (n_iter n_jobs : ℤ)
    (hn : 0 < n_iter) (hj : 0 < n_jobs) (i : ℕ) (hi : i < n_jobs.toNat) (e : PyError)
    (hfail : integrate f (partition_endpoint a b n_jobs i)
        (partition_endpoint a b n_jobs (i + 1)) (iter_per_job n_iter n_jobs) = .error e) :
    (∃ e₁, integrate_processes f a b n_iter n_jobs = .error e₁) ∧
    (∃ e₂, integrate_threaded f a b n_iter n_jobs = .error e₂) := by
  have hkey : ∀ r : ℚ, sumResults
      (fun i =>
        integrate f (partition_endpoint a b n_jobs i) (partition_endpoint a b n_jobs (i + 1))
          (iter_per_job n_iter n_jobs))
      n_jobs.toNat ≠ .ok r := by
    intro r hr
    obtain ⟨v, hv⟩ := sumResults_ok_inv _ _ _ hr i hi
    exact Except.noConfusion (hfail.symm.trans hv)
  constructor
  · unfold integrate_processes
    rw [if_neg (by omega), if_neg (by omega)]
    cases hres : sumResults
        (fun i =>
          integrate f (partition_endpoint a b n_jobs i) (partition_endpoint a b n_jobs (i + 1))
            (iter_per_job n_iter n_jobs))
        n_jobs.toNat with
    | error e' => exact ⟨e', rfl⟩
    | ok r => exact absurd hres (hkey r)
  · unfold integrate_threaded
    rw [if_neg (by omega), if_neg (by omega)]
    cases hres : sumResults
        (fun i =>
          integrate f (partition_endpoint a b n_jobs i) (partition_endpoint a b n_jobs (i + 1))
            (iter_per_job n_iter n_jobs))
        n_jobs.toNat with
    | error e' => exact ⟨e', rfl⟩
    | ok r => exact absurd hres (hkey r)

/-- Witness for C7: with `n_iter = 1`, `n_jobs = 2` partition `0` receives
`1 // 2 = 0` samples, so its `integrate` call raises, and both dispatchers
propagate a failure. -/
theorem worker_failure_propagates_witness :
    integrate (fun x => x) (partition_endpoint 0 1 2 0) (partition_endpoint 0 1 2 (0 + 1))
      (iter_per_job 1 2) = .error (.valueError "n_iter должно быть положительным") ∧
    (∃ e₁, integrate_processes (fun x => x) 0 1 1 2 = .error e₁) ∧
    (∃ e₂, integrate_threaded (fun x => x) 0 1 1 2 = .error e₂) := by
  have hfail : integrate (fun x => x) (partition_endpoint 0 1 2 0)
      (partition_endpoint 0 1 2 (0 + 1)) (iter_per_job 1 2) =
      .error (.valueError "n_iter должно быть положительным") := by
    unfold integrate
    rw [if_pos (by decide)]
  have h := worker_failure_propagates (fun x => x) 0 1 1 2 (by decide) (by decide) 0 (by decide)
    _ hfail
  exact ⟨hfail, h.1, h.2⟩

/-! ## C9: n_iter < n_jobs makes every partition fail -/

/-- C9: whenever `0 < n_iter < n_jobs` (so both stated preconditions hold),
`iter_per_job = n_iter // n_jobs = 0`, every per-partition `integrate` call fails
its own `n_iter <= 0` check, and both dispatchers raise that `ValueError`. -/
theorem parallel_small_n_iter_fails (f : ℚ → ℚ) (a b : ℚ) (n_iter n_jobs : ℤ)
    (hab : a < b) (hn : 0 < n_iter) (hnj : n_iter < n_jobs) :
    integrate_processes f a b n_iter n_jobs =
      .error (.valueError "n_iter должно быть положительным") ∧
    integrate_threaded f a b n_iter n_jobs =
      .error (.valueError "n_iter должно быть положительным") := by
  have hj : 0 < n_jobs := hn.trans hnj
  have hipj : iter_per_job n_iter n_jobs = 0 := by
    rw [iter_per_job, Int.fdiv_eq_ediv _ (by omega)]
    exact Int.ediv_eq_zero_of_lt (by omega) hnj
  have hjob0 : integrate f (partition_endpoint a b n_jobs 0)
      (partition_endpoint a b n_jobs (0 + 1)) (iter_per_job n_iter n_jobs) =
      .error (.valueError "n_iter должно быть положительным") := by
    rw [hipj]
    unfold integrate
    rw [if_pos le_rfl]
  constructor
  · unfold integrate_processes
    rw [if_neg (by omega), if_neg (by omega)]
    exact sumResults_first_error _ _ _ (by omega) hjob0
  · unfold integrate_threaded
    rw [if_neg (by omega), if_neg (by omega)]
    exact sumResults_first_error _ _ _ (by omega) hjob0

/-- Witness for C9 at `[0, 1]`, `n_iter = 1`, `n_jobs = 3`. -/
theorem parallel_small_n_iter_fails_witness :
    (0 : ℚ) < 1 ∧ (0 : ℤ) < 1 ∧ (1 : ℤ) < 3 ∧
    integrate_processes (fun x => x) 0 1 1 3 =
      .error (.valueError "n_iter должно быть положительным") ∧
    integrate_threaded (fun x => x) 0 1 1 3 =
      .error (.valueError "n_iter должно быть положительным") := by
  have h := parallel_small_n_iter_fails (fun x => x) 0 1 1 3 (by norm_num) (by decide) (by decide)
  exact ⟨by norm_num, by decide, by decide, h.1, h.2⟩

/-! ## C10: the integrand is only sampled inside [a, b) -/

/-- C10: `integrate` evaluates the integrand only at the sample points
`a + i*step`, `i ∈ [0, n_iter)` — two integrands agreeing there yield identical
results — and (in exact arithmetic) every such point lies in `[a, b)`; in
particular the right endpoint `b` is never sampled. -/
theorem integrate_samples_in_halfopen_interval (f g : ℚ → ℚ) (a b : ℚ) (n_iter : ℤ)
    (hab : a < b) (hn : 0 < n_iter) :
    (∀ p ∈ samplePoints a ((b - a) / (n_iter : ℚ)) n_iter.toNat, a ≤ p ∧ p < b) ∧
    ((∀ p ∈ samplePoints a ((b - a) / (n_iter : ℚ)) n_iter.toNat, f p = g p) →
      integrate f a b n_iter = integrate g a b n_iter) := by
  have hnq : (0 : ℚ) < ((n_iter : ℤ) : ℚ) := by exact_mod_cast hn
  have hstep : (0 : ℚ) < (b - a) / ((n_iter : ℤ) : ℚ) := div_pos (by linarith) hnq
  constructor
  · intro p hp
    obtain ⟨i, hi, rfl⟩ := List.mem_map.mp hp
    have hi' : (i : ℚ) < ((n_iter : ℤ) : ℚ) := by
      have h1 : i < n_iter.toNat := List.mem_range.mp hi
      have h2 : ((i : ℕ) : ℚ) < ((n_iter.toNat : ℕ) : ℚ) := by exact_mod_cast h1
      have h3 : ((n_iter.toNat : ℕ) : ℚ) = ((n_iter : ℤ) : ℚ) := by
        exact_mod_cast Int.toNat_of_nonneg (le_of_lt hn)
      linarith
    constructor
    · have : (0 : ℚ) ≤ (i : ℚ) * ((b - a) / ((n_iter : ℤ) : ℚ)) :=
        mul_nonneg (Nat.cast_nonneg i) (le_of_lt hstep)
      linarith
    · have hmul : (i : ℚ) * ((b - a) / ((n_iter : ℤ) : ℚ)) <
          ((n_iter : ℤ) : ℚ) * ((b - a) / ((n_iter : ℤ) : ℚ)) :=
        mul_lt_mul_of_pos_right hi' hstep
      have hcancel : ((n_iter : ℤ) : ℚ) * ((b - a) / ((n_iter : ℤ) : ℚ)) = b - a :=
        mul_div_cancel₀ _ (ne_of_gt hnq)
      linarith
  · intro hfg
    rw [integrate_eq_sum f a b n_iter hn hab, integrate_eq_sum g a b n_iter hn hab]
    refine congrArg Except.ok (Finset.sum_congr rfl fun i hi => ?_)
    have hmem : a + (i : ℚ) * ((b - a) / ((n_iter : ℤ) : ℚ)) ∈
        samplePoints a ((b - a) / ((n_iter : ℤ) : ℚ)) n_iter.toNat :=
      List.mem_map.mpr ⟨i, List.mem_range.mpr (Finset.mem_range.mp hi), rfl⟩
    rw [hfg _ hmem]

/-- Witness for C10 at `[0, 1]`, `n_iter = 2`, comparing `id` with a function
differing only at the right endpoint `1`. -/
theorem integrate_samples_in_halfopen_interval_witness :
    (0 : ℚ) < 1 ∧ (0 : ℤ) < 2 ∧
    ((∀ p ∈ samplePoints 0 ((1 - 0) / ((2 : ℤ) : ℚ)) (2 : ℤ).toNat, (0 : ℚ) ≤ p ∧ p < 1) ∧
     ((∀ p ∈ samplePoints 0 ((1 - 0) / ((2 : ℤ) : ℚ)) (2 : ℤ).toNat,
        (fun x : ℚ => x) p = (fun x : ℚ => if x = 1 then 99 else x) p) →
      integrate (fun x : ℚ => x) 0 1 2 = integrate (fun x : ℚ => if x = 1 then 99 else x) 0 1 2)) :=
  ⟨by norm_num, by decide,
    integrate_samples_in_halfopen_interval (fun x => x) (fun x => if x = 1 then 99 else x)
      0 1 2 (by norm_num) (by decide)⟩

/-! ## C8: x² over [0,1] with a million samples is within 1e-5 of 1/3 -/

/-- Closed form of the sum of the first `n` squares over `ℚ`. -/
theorem sum_range_sq (n : ℕ) :
    ∑ i in Finset.range n, ((i : ℚ)) ^ 2 =
      (n : ℚ) * ((n : ℚ) - 1) * (2 * (n : ℚ) - 1) / 6 := by
  induction n with
  | zero => simp
  | succ n ih =>
      rw [Finset.sum_range_succ, ih]
      push_cast
      ring

/-- C8: `integrate (x ↦ x²) 0 1 1e6` returns (in exact arithmetic) the
left-rectangle sum `(n-1)·n·(2n-1)/(6n³)` with `n = 10⁶`, and that value is
within `1e-5` of `1/3`. -/
theorem integrate_sq_close_to_third :
    integrate (fun x => x ^ 2) 0 1 1000000 =
      .ok (999999 * 1000000 * 1999999 / 6000000000000000000 : ℚ) ∧
    |(999999 * 1000000 * 1999999 / 6000000000000000000 : ℚ) - 1 / 3| < 1 / 100000 := by
  constructor
  · rw [integrate_eq_sum (fun x => x ^ 2) 0 1 1000000 (by decide) (by norm_num)]
    refine congrArg Except.ok ?_
    have hterm : ∀ i : ℕ,
        ((0 : ℚ) + (i : ℚ) * ((1 - 0) / ((1000000 : ℤ) : ℚ))) ^ 2 *
            ((1 - 0) / ((1000000 : ℤ) : ℚ)) =
          (i : ℚ) ^ 2 * (1 / 1000000000000000000) := by
      intro i
      push_cast
      ring
    rw [show ((1000000 : ℤ).toNat) = 1000000 from rfl,
      Finset.sum_congr rfl (fun i _ => hterm i), ← Finset.sum_mul, sum_range_sq]
    norm_num
  · rw [abs_lt]
    constructor <;> norm_num

/-! ## C4: validation is not uniform across the two dispatchers -/

/-- C4 counterexample side (code bug per the spec's §9 note): the process variant
does raise `ValueError` from explicit `n_jobs`/`n_iter` checks before dispatch,
but the thread variant performs no precondition check at all — `n_jobs = 0`
produces a `ZeroDivisionError` at `step = (b - a) / n_jobs`, `n_jobs < 0`
produces the executor's own `max_workers` `ValueError`, and `n_iter ≤ 0` only
fails inside the per-partition `integrate` calls after dispatch. -/
theorem threaded_missing_precondition_checks :
    integrate_processes (fun x => x) 0 1 100000 0 =
      .error (.valueError "n_jobs должно быть положительным") ∧
    integrate_processes (fun x => x) 0 1 0 2 =
      .error (.valueError "n_iter должно быть положительным") ∧
    integrate_threaded (fun x => x) 0 1 100000 0 = .error .zeroDivisionError ∧
    integrate_threaded (fun x => x) 0 1 100000 (-1) =
      .error (.valueError "max_workers must be greater than 0") ∧
    integrate_threaded (fun x => x) 0 1 0 2 =
      .error (.valueError "n_iter должно быть положительным") := by
  refine ⟨?_, ?_, ?_, ?_, ?_⟩ <;> decide
